import Mathlib

/-!
Shallow embedding of the saga-ts step-chaining and compensation engine
(source: the TypeScript module defining SagaBuilder with its step, run and
rollback methods, plus the createSaga factory), together with proofs about
the engine's specified behaviour.

Conventions of the embedding:
* Step inputs and outputs are drawn from one value type V.
* A thrown JavaScript value is a Thrown: an Error object, or any other value
  represented by the text that String(v) produces for it.
* Side effects visible to the specification are recorded in an event trace:
  an execCall event each time a step's execute operation is invoked (with the
  context it receives), an rbCall event each time an executed step's rollback
  operation is invoked (with the output it receives), and an rbError event
  each time the compensator catches a rollback failure and reports it via
  console.error.
* async/await in the source is strictly sequential (a single operation in
  flight per saga run), so execution is modelled by sequential recursion.
-/

namespace Saga

/-- A JavaScript Error object: a message plus whatever further data the object
carries (stack, custom fields), abstracted as a numeric tag so that distinct
Error objects with equal messages stay distinguishable. `new Error(s)` yields
tag 0. -/
structure JSError where
  message : String
  tag : Nat
deriving DecidableEq, Repr

/-- A value thrown by JavaScript code: either an Error instance, or any other
value, kept as the text that String(v) converts it to. -/
inductive Thrown where
  | errObj (e : JSError)
  | other (text : String)
deriving DecidableEq, Repr

/-- `error instanceof Error ? error : new Error(String(error))` — the
normalization applied in run's catch blocks. -/
def normalizeThrown : Thrown → JSError
  | .errObj e => e
  | .other s => ⟨s, 0⟩

/-- A registered step (the source's StepDefinition): name, captured input,
execute operation (taking the input and the context's results map), and an
optional rollback operation.  Execute and rollback either return normally or
throw. -/
structure StepDef (V : Type) where
  name : String
  input : V
  execute : V → List (String × V) → Except Thrown V
  rollback : Option (V → Except Thrown Unit)

/-- An entry of the executedSteps list built during run: name, the captured
output, and the step's optional rollback operation. -/
structure ExecutedStep (V : Type) where
  name : String
  output : V
  rollback : Option (V → Except Thrown Unit)

/-- The observable events of a saga run. -/
inductive Event (V : Type) where
  | execCall (name : String) (ctx : List (String × V))
  | rbCall (name : String) (output : V)
  | rbError (name : String) (error : Thrown)
deriving DecidableEq, Repr

/-- `results[name] = output` with JavaScript object semantics: if the key is
already present its value is replaced in place (keeping its original
position), otherwise the pair is appended. -/
def setKey {V : Type} : List (String × V) → String → V → List (String × V)
  | [], k, v => [(k, v)]
  | (k', v') :: rest, k, v =>
    if k' = k then (k, v) :: rest else (k', v') :: setKey rest k v

/-- The saga result (source type SagaResult): success carries `data` (the
last step's output, absent for a zero-step saga) and the results map; failed
carries the normalized error and the name of the step that failed.  The
success variant has exactly these two components in the source — in
particular it carries no bound rollback operation. -/
inductive SagaResult (V : Type) where
  | success (data : Option V) (results : List (String × V))
  | failed (error : JSError) (failedAt : String)
deriving DecidableEq, Repr

/-- One iteration of the compensator's loop: skip the record when it has no
rollback operation; otherwise invoke the rollback with the captured output
and, if it throws, catch the failure and report step name and error via
console.error. -/
def rbEvents {V : Type} (st : ExecutedStep V) : List (Event V) :=
  match st.rollback with
  | none => []
  | some rb =>
    match rb st.output with
    | .ok _ => [Event.rbCall st.name st.output]
    | .error e => [Event.rbCall st.name st.output, Event.rbError st.name e]

/-- The compensator's loop (source: private rollback, the `for` loop running
from the last index down to 0), expressed over the executed list already
reversed: each iteration runs rbEvents and continues with the older
records. -/
def rollbackFrom {V : Type} : List (ExecutedStep V) → List (Event V)
  | [] => []
  | st :: older => rbEvents st ++ rollbackFrom older

/-- The compensator (source: private rollback(executedSteps)): iterate the
executed-steps list from its last element to its first. -/
def rollback {V : Type} (executedSteps : List (ExecutedStep V)) : List (Event V) :=
  rollbackFrom executedSteps.reverse

/-- The body of run's for loop (source lines 66-91) plus the success return
(lines 93-97), threading the mutable locals results, executedSteps and
lastOutput, and accumulating the event trace. -/
def runLoop {V : Type} :
    List (StepDef V) → List (String × V) → List (ExecutedStep V) →
    Option V → List (Event V) → SagaResult V × List (Event V)
  | [], results, _, lastOutput, log =>
      (SagaResult.success lastOutput results, log)
  | step :: rest, results, executed, _lastOutput, log =>
      match step.execute step.input results with
      | .ok output =>
          runLoop rest (setKey results step.name output)
            (executed ++ [⟨step.name, output, step.rollback⟩]) (some output)
            (log ++ [Event.execCall step.name results])
      | .error e =>
          (SagaResult.failed (normalizeThrown e) step.name,
           (log ++ [Event.execCall step.name results]) ++ rollback executed)

/-- run(): initialize empty results, executedSteps, lastOutput = undefined and
run the loop.  The try block's body is total in this model, so run returns
its value directly; the outer catch is modelled by orchestratorCatch. -/
def run {V : Type} (steps : List (StepDef V)) : SagaResult V × List (Event V) :=
  runLoop steps [] [] none []

/-- run()'s outer catch (source lines 98-104): any error escaping the try
block is normalized and returned as a failed result attributed to the
pseudo-step name "orchestrator". -/
def orchestratorCatch {V : Type} (e : Thrown) : SagaResult V :=
  SagaResult.failed (normalizeThrown e) "orchestrator"

/-- The heap of builder objects, for reasoning about references: each
SagaBuilder instance is its private mutable steps array, and a reference is
an index into this list. -/
structure BuilderHeap (V : Type) where
  objs : List (List (StepDef V))

/-- createSaga(): `new SagaBuilder()` — allocate a fresh builder with an empty
steps array and return a reference to it. -/
def createSaga {V : Type} (h : BuilderHeap V) : BuilderHeap V × Nat :=
  (⟨h.objs ++ [[]]⟩, h.objs.length)

/-- The step method (source lines 36-53): `this.steps.push({...})` followed by
`return this` — it mutates the referenced builder's array in place and
returns the same reference. -/
def stepRef {V : Type} (h : BuilderHeap V) (r : Nat) (s : StepDef V) :
    BuilderHeap V × Nat :=
  (⟨h.objs.set r ((h.objs.getD r []) ++ [s])⟩, r)

/-- run() invoked through a reference: execute the referenced builder's
current steps array. -/
def runRef {V : Type} (h : BuilderHeap V) (r : Nat) :
    SagaResult V × List (Event V) :=
  run (h.objs.getD r [])

/-- JavaScript property read `m[k]` on a results object. -/
def getKey? {V : Type} : List (String × V) → String → Option V
  | [], _ => none
  | (k', v') :: rest, k => if k' = k then some v' else getKey? rest k

/-- The state threaded by run's loop: the results map, the executedSteps
list, the lastOutput local, and the event trace so far. -/
structure FwdState (V : Type) where
  results : List (String × V)
  executed : List (ExecutedStep V)
  lastOutput : Option V
  log : List (Event V)

/-- The initial state of a run: empty results, no executed steps, lastOutput
undefined, empty trace. -/
def fwd0 {V : Type} : FwdState V := ⟨[], [], none, []⟩

/-- Characterization of the forward pass: the state of run's loop after the
given steps, provided each execute operation succeeds on the context it is
given; none as soon as one of them throws. -/
def fwd {V : Type} : List (StepDef V) → FwdState V → Option (FwdState V)
  | [], st => some st
  | step :: rest, st =>
    match step.execute step.input st.results with
    | .ok output =>
        fwd rest ⟨setKey st.results step.name output,
                  st.executed ++ [⟨step.name, output, step.rollback⟩],
                  some output,
                  st.log ++ [Event.execCall step.name st.results]⟩
    | .error _ => none

/-- The results map determined by an executed-steps list: each record's
output written under its name, in execution order. -/
def project {V : Type} (ex : List (ExecutedStep V)) : List (String × V) :=
  ex.foldl (fun r e => setKey r e.name e.output) []

/-- Recognizer for rollback-invocation events. -/
def isRbCall {V : Type} : Event V → Bool
  | .rbCall _ _ => true
  | _ => false

/-- A concrete step over Nat outputs whose execute succeeds with the given
value and whose rollback succeeds; used to instantiate the theorems. -/
def okStep (n : String) (v : Nat) : StepDef Nat :=
  ⟨n, 0, fun _ _ => Except.ok v, some (fun _ => Except.ok ())⟩

/-- A concrete step without a rollback operation. -/
def okStepNoRb (n : String) (v : Nat) : StepDef Nat :=
  ⟨n, 0, fun _ _ => Except.ok v, none⟩

/-- A concrete step whose execute throws an Error object. -/
def failStep (n : String) : StepDef Nat :=
  ⟨n, 0, fun _ _ => Except.error (Thrown.errObj ⟨"boom", 7⟩), none⟩

/-- A concrete step whose execute succeeds but whose rollback throws. -/
def badRbStep (n : String) (v : Nat) : StepDef Nat :=
  ⟨n, 0, fun _ _ => Except.ok v,
   some (fun _ => Except.error (Thrown.errObj ⟨"rollback boom", 3⟩))⟩

/-- A concrete step whose execute throws a non-Error value (a plain text
value), as in the repository's test on non-Error thrown values. -/
def throwTextStep (n : String) (s : String) : StepDef Nat :=
  ⟨n, 0, fun _ _ => Except.error (Thrown.other s), none⟩

/-- A heap holding no builders yet. -/
def cexHeap0 : BuilderHeap Nat := ⟨[]⟩

/-- createSaga() on the empty heap: the base builder of the divergent-chain
scenario. -/
def cexAlloc : BuilderHeap Nat × Nat := createSaga cexHeap0

/-- The base chain: one step "a" appended to the fresh builder. -/
def cexBase : BuilderHeap Nat × Nat := stepRef cexAlloc.1 cexAlloc.2 (okStep "a" 1)

/-- The first divergent chain: step "b" appended through the base
reference. -/
def cexChain1 : BuilderHeap Nat × Nat := stepRef cexBase.1 cexBase.2 (okStep "b" 2)

/-- The second divergent chain: step "c" appended through the same base
reference after the first chain's append. -/
def cexChain2 : BuilderHeap Nat × Nat := stepRef cexChain1.1 cexBase.2 (okStep "c" 3)

/-- Running a saga whose first steps all succeed reaches the loop state that
fwd describes, with the remaining steps still to process. -/
theorem runLoop_of_fwd {V : Type} :
    ∀ (pre rest : List (StepDef V)) (s st : FwdState V),
    fwd pre s = some st →
    runLoop (pre ++ rest) s.results s.executed s.lastOutput s.log =
      runLoop rest st.results st.executed st.lastOutput st.log
  | [], rest, s, st, h => by
      simp [fwd] at h
      subst h
      rfl
  | step :: pre, rest, s, st, h => by
      cases hx : step.execute step.input s.results with
      | ok output =>
          have h' : fwd pre ⟨setKey s.results step.name output,
              s.executed ++ [⟨step.name, output, step.rollback⟩], some output,
              s.log ++ [Event.execCall step.name s.results]⟩ = some st := by
            simpa [fwd, hx] using h
          have hrec := runLoop_of_fwd pre rest _ st h'
          simpa [runLoop, hx] using hrec
      | error e =>
          simp [fwd, hx] at h

/-- A run all of whose steps succeed returns the success result assembled
from the final loop state. -/
theorem run_success_eq {V : Type} (steps : List (StepDef V)) (st : FwdState V)
    (h : fwd steps fwd0 = some st) :
    run steps = (SagaResult.success st.lastOutput st.results, st.log) := by
  have hrec := runLoop_of_fwd steps [] fwd0 st h
  simpa [run, fwd0, runLoop] using hrec

/-- A run whose steps succeed up to a step whose execute throws returns the
failed result for that step and appends the compensation events for the
steps executed so far. -/
theorem run_fail_eq {V : Type} (pre : List (StepDef V)) (sk : StepDef V)
    (post : List (StepDef V)) (e : Thrown) (st : FwdState V)
    (hpre : fwd pre fwd0 = some st)
    (hk : sk.execute sk.input st.results = Except.error e) :
    run (pre ++ sk :: post) =
      (SagaResult.failed (normalizeThrown e) sk.name,
       (st.log ++ [Event.execCall sk.name st.results]) ++ rollback st.executed) := by
  have hrec := runLoop_of_fwd pre (sk :: post) fwd0 st hpre
  have hrun : run (pre ++ sk :: post) =
      runLoop (sk :: post) st.results st.executed st.lastOutput st.log := by
    simpa [run, fwd0] using hrec
  rw [hrun]
  simp [runLoop, hk]

/-- Writing a key absent from the map appends the new pair at the end. -/
theorem setKey_fresh {V : Type} :
    ∀ (r : List (String × V)) (k : String) (v : V),
    k ∉ r.map Prod.fst → setKey r k v = r ++ [(k, v)]
  | [], _, _, _ => rfl
  | (k', v') :: rest, k, v, h => by
      simp only [List.map_cons, List.mem_cons] at h
      push_neg at h
      have hne : k' ≠ k := fun hh => h.1 hh.symm
      simp [setKey, hne, setKey_fresh rest k v h.2]

/-- The names of the executed records grow by exactly the names of the
successfully executed steps, in order. -/
theorem fwd_executed_names {V : Type} :
    ∀ (pre : List (StepDef V)) (s st : FwdState V), fwd pre s = some st →
    st.executed.map ExecutedStep.name =
      s.executed.map ExecutedStep.name ++ pre.map StepDef.name
  | [], s, st, h => by
      simp [fwd] at h
      subst h
      simp
  | step :: pre, s, st, h => by
      cases hx : step.execute step.input s.results with
      | ok output =>
          have h' := (by simpa [fwd, hx] using h :
            fwd pre ⟨setKey s.results step.name output,
              s.executed ++ [⟨step.name, output, step.rollback⟩], some output,
              s.log ++ [Event.execCall step.name s.results]⟩ = some st)
          have hrec := fwd_executed_names pre _ st h'
          simpa using hrec
      | error e => simp [fwd, hx] at h

/-- Along the forward pass, the results map always equals the projection of
the executed-steps list. -/
theorem fwd_results_project {V : Type} :
    ∀ (pre : List (StepDef V)) (s st : FwdState V), fwd pre s = some st →
    s.results = project s.executed → st.results = project st.executed
  | [], s, st, h, hinv => by
      simp [fwd] at h
      subst h
      exact hinv
  | step :: pre, s, st, h, hinv => by
      cases hx : step.execute step.input s.results with
      | ok output =>
          have h' := (by simpa [fwd, hx] using h :
            fwd pre ⟨setKey s.results step.name output,
              s.executed ++ [⟨step.name, output, step.rollback⟩], some output,
              s.log ++ [Event.execCall step.name s.results]⟩ = some st)
          refine fwd_results_project pre _ st h' ?_
          simp only [project, List.foldl_append, List.foldl_cons, List.foldl_nil]
          exact congrArg (fun r => setKey r step.name output) hinv
      | error e => simp [fwd, hx] at h

/-- Along the forward pass, the lastOutput local always equals the output of
the most recently executed step. -/
theorem fwd_lastOutput_inv {V : Type} :
    ∀ (pre : List (StepDef V)) (s st : FwdState V), fwd pre s = some st →
    s.lastOutput = (s.executed.map ExecutedStep.output).getLast? →
    st.lastOutput = (st.executed.map ExecutedStep.output).getLast?
  | [], s, st, h, hinv => by
      simp [fwd] at h
      subst h
      exact hinv
  | step :: pre, s, st, h, hinv => by
      cases hx : step.execute step.input s.results with
      | ok output =>
          have h' := (by simpa [fwd, hx] using h :
            fwd pre ⟨setKey s.results step.name output,
              s.executed ++ [⟨step.name, output, step.rollback⟩], some output,
              s.log ++ [Event.execCall step.name s.results]⟩ = some st)
          refine fwd_lastOutput_inv pre _ st h' ?_
          simp
      | error e => simp [fwd, hx] at h

/-- With pairwise-distinct step names, the forward pass's results map is
exactly the name/output pair of each executed record, in execution order. -/
theorem fwd_results_pairs {V : Type} :
    ∀ (pre : List (StepDef V)) (s st : FwdState V), fwd pre s = some st →
    (s.results.map Prod.fst ++ pre.map StepDef.name).Nodup →
    s.results = s.executed.map (fun r => (r.name, r.output)) →
    st.results = st.executed.map (fun r => (r.name, r.output))
  | [], s, st, h, _, hinv => by
      simp [fwd] at h
      subst h
      exact hinv
  | step :: pre, s, st, h, hnodup, hinv => by
      cases hx : step.execute step.input s.results with
      | ok output =>
          have h' := (by simpa [fwd, hx] using h :
            fwd pre ⟨setKey s.results step.name output,
              s.executed ++ [⟨step.name, output, step.rollback⟩], some output,
              s.log ++ [Event.execCall step.name s.results]⟩ = some st)
          have hdisj := (List.nodup_append.mp hnodup).2.2
          have hfresh : step.name ∉ s.results.map Prod.fst := by
            intro hmem
            exact hdisj hmem (by simp)
          refine fwd_results_pairs pre _ st h' ?_ ?_
          · have hset : (setKey s.results step.name output).map Prod.fst ++
                pre.map StepDef.name =
                s.results.map Prod.fst ++ (step :: pre).map StepDef.name := by
              rw [setKey_fresh s.results step.name output hfresh]
              simp
            rw [hset]
            exact hnodup
          · rw [setKey_fresh s.results step.name output hfresh, hinv]
            simp
      | error e => simp [fwd, hx] at h

/-- The rollback invocations performed by the compensator's loop are exactly
one per visited record that carries a rollback operation, in visiting order,
each with that record's captured output — whether or not the invocation
throws. -/
theorem rollbackFrom_filter_rbCall {V : Type} :
    ∀ l : List (ExecutedStep V),
    (rollbackFrom l).filter isRbCall =
      (l.filter (fun r => (ExecutedStep.rollback r).isSome)).map
        (fun r => Event.rbCall r.name r.output)
  | [] => rfl
  | r :: l => by
      cases hrb : r.rollback with
      | none =>
          simp [rollbackFrom, rbEvents, hrb, rollbackFrom_filter_rbCall l]
      | some rb =>
          cases hout : rb r.output with
          | ok u =>
              simp [rollbackFrom, rbEvents, hrb, hout, isRbCall,
                rollbackFrom_filter_rbCall l]
          | error e =>
              simp [rollbackFrom, rbEvents, hrb, hout, isRbCall,
                rollbackFrom_filter_rbCall l]

/-- The events of any visited record appear in the compensator loop's
trace. -/
theorem mem_rollbackFrom {V : Type} (l : List (ExecutedStep V))
    (r : ExecutedStep V) (hr : r ∈ l) (ev : Event V) (hev : ev ∈ rbEvents r) :
    ev ∈ rollbackFrom l := by
  induction l with
  | nil => exact absurd hr (List.not_mem_nil r)
  | cons x l ih =>
      rcases List.mem_cons.mp hr with h | h
      · subst h
        exact List.mem_append_left _ hev
      · exact List.mem_append_right _ (ih h)

/-- The compensator invokes exactly the rollback-bearing executed records,
from the most recently executed to the first, each with its own captured
output. -/
theorem rollback_filter_rbCall {V : Type} (ex : List (ExecutedStep V)) :
    (rollback ex).filter isRbCall =
      (ex.reverse.filter (fun r => (ExecutedStep.rollback r).isSome)).map
        (fun r => Event.rbCall r.name r.output) :=
  rollbackFrom_filter_rbCall ex.reverse

/-- Reading back the key just written. -/
theorem getKey?_setKey_self {V : Type} :
    ∀ (r : List (String × V)) (k : String) (v : V),
    getKey? (setKey r k v) k = some v
  | [], k, v => by simp [setKey, getKey?]
  | (k', v') :: rest, k, v => by
      by_cases h : k' = k
      · simp [setKey, h, getKey?]
      · simp [setKey, h, getKey?, getKey?_setKey_self rest k v]

/-- Writing one key leaves reads of any other key unchanged. -/
theorem getKey?_setKey_ne {V : Type} :
    ∀ (r : List (String × V)) (k k' : String) (v : V), k' ≠ k →
    getKey? (setKey r k v) k' = getKey? r k'
  | [], k, k', v, h => by
      have hne : ¬ k = k' := fun hh => h hh.symm
      simp [setKey, getKey?, hne]
  | (k₀, v₀) :: rest, k, k', v, h => by
      by_cases h0 : k₀ = k
      · subst h0
        have hne : ¬ k₀ = k' := fun hh => h hh.symm
        simp [setKey, getKey?, hne]
      · by_cases h1 : k₀ = k'
        · subst h1
          simp [setKey, getKey?, h0]
        · simp [setKey, h0, getKey?, h1, getKey?_setKey_ne rest k k' v h]

/-- Projection over an extended executed list folds the extra records onto
the existing projection. -/
theorem project_append {V : Type} (l1 l2 : List (ExecutedStep V)) :
    project (l1 ++ l2) =
      l2.foldl (fun r e => setKey r e.name e.output) (project l1) := by
  simp [project, List.foldl_append]

/-- In the projected results map, a record whose name is not reused by any
later record is read back with its own output: the last write wins. -/
theorem getKey?_project_last {V : Type} (ex1 : List (ExecutedStep V))
    (r : ExecutedStep V) :
    ∀ ex2 : List (ExecutedStep V), r.name ∉ ex2.map ExecutedStep.name →
    getKey? (project (ex1 ++ r :: ex2)) r.name = some r.output := by
  intro ex2
  induction ex2 using List.reverseRecOn with
  | nil =>
      intro _
      rw [show ex1 ++ [r] = ex1 ++ [r] from rfl, project_append]
      simp [getKey?_setKey_self]
  | append_singleton ex2 x ih =>
      intro hfresh
      simp only [List.map_append, List.map_cons, List.mem_append] at hfresh
      push_neg at hfresh
      have hne : r.name ≠ x.name := by
        intro hh
        exact hfresh.2 (by simp [hh])
      have hrw : ex1 ++ r :: (ex2 ++ [x]) = (ex1 ++ r :: ex2) ++ [x] := by
        simp
      rw [hrw, project_append]
      simp only [List.foldl_cons, List.foldl_nil]
      rw [getKey?_setKey_ne _ _ _ _ hne]
      exact ih hfresh.1

/-- C1: the claim states that every successful run returns a value exposing a
bound whole-saga rollback operation.  In the source, the SagaResult success
variant — and the value run actually returns on success — carries only
`status`, `data` and `results`; the embedded SagaResult.success constructor
below accordingly has no rollback component, even though the repository's own
nested-saga tests invoke `result.rollback()` on it.  This theorem evaluates
the embedded run on the inner saga of that test (two succeeding steps): the
returned success value consists of the data and results fields alone, so the
rollback invocation the test performs next has nothing to call. -/
theorem saga_C1_success_carries_no_rollback :
    run [okStep "innerStep1" 1, okStep "innerStep2" 2] =
      (SagaResult.success (some 2) [("innerStep1", 1), ("innerStep2", 2)],
       [Event.execCall "innerStep1" [],
        Event.execCall "innerStep2" [("innerStep1", 1)]]) :=
  rfl

/-- C2: when steps 1..k-1 succeed (reaching forward state st) and step k's
execute throws e, run returns the failed result with failedAt = step k's
name and the normalized error; the trace extends the forward trace with step
k's execute invocation followed by the compensation events, in which the
rollback-bearing executed records are invoked exactly in reverse execution
order, each with its captured output; and the entire observable outcome is
independent of the steps registered after step k, whose execute operations
are therefore never invoked. -/
theorem saga_C2_failure_compensates_reverse {V : Type} (pre : List (StepDef V))
    (sk : StepDef V) (post : List (StepDef V)) (e : Thrown) (st : FwdState V)
    (hpre : fwd pre fwd0 = some st)
    (hk : sk.execute sk.input st.results = Except.error e) :
    run (pre ++ sk :: post) =
      (SagaResult.failed (normalizeThrown e) sk.name,
       (st.log ++ [Event.execCall sk.name st.results]) ++ rollback st.executed)
    ∧ (rollback st.executed).filter isRbCall =
        (st.executed.reverse.filter (fun r => (ExecutedStep.rollback r).isSome)).map
          (fun r => Event.rbCall r.name r.output)
    ∧ ∀ post' : List (StepDef V),
        run (pre ++ sk :: post') = run (pre ++ sk :: post) := by
  refine ⟨run_fail_eq pre sk post e st hpre hk,
    rollback_filter_rbCall st.executed, ?_⟩
  intro post'
  rw [run_fail_eq pre sk post' e st hpre hk, run_fail_eq pre sk post e st hpre hk]

/-- Witness for C2: steps "a" (succeeds, output 1), "c" (throws boom), "d"
(never reached): failed at "c", only "a" compensated. -/
theorem saga_C2_witness :
    run [okStep "a" 1, failStep "c", okStep "d" 4] =
      (SagaResult.failed ⟨"boom", 7⟩ "c",
       [Event.execCall "a" [], Event.execCall "c" [("a", 1)],
        Event.rbCall "a" 1]) := by
  have h := saga_C2_failure_compensates_reverse [okStep "a" 1] (failStep "c")
    [okStep "d" 4] (Thrown.errObj ⟨"boom", 7⟩)
    ⟨[("a", 1)], [⟨"a", 1, some (fun _ => Except.ok ())⟩], some 1,
      [Event.execCall "a" []]⟩ rfl rfl
  exact h.1

/-- C3: when every execute succeeds and the step names are pairwise
distinct, run returns success; the results map is exactly one entry per
registered step, keyed by the step's name and holding the output its own
execute returned, in registration order; data is the last step's output; and
the zero-step saga returns success with empty results and absent data. -/
theorem saga_C3_success_results_shape {V : Type} (steps : List (StepDef V))
    (st : FwdState V) (h : fwd steps fwd0 = some st)
    (hnodup : (steps.map StepDef.name).Nodup) :
    run steps = (SagaResult.success st.lastOutput st.results, st.log)
    ∧ st.results = st.executed.map (fun r => (r.name, r.output))
    ∧ st.executed.map ExecutedStep.name = steps.map StepDef.name
    ∧ st.lastOutput = (st.executed.map ExecutedStep.output).getLast?
    ∧ run ([] : List (StepDef V)) = (SagaResult.success none [], []) := by
  refine ⟨run_success_eq steps st h, ?_, ?_, ?_, rfl⟩
  · exact fwd_results_pairs steps fwd0 st h (by simpa [fwd0] using hnodup) rfl
  · simpa [fwd0] using fwd_executed_names steps fwd0 st h
  · exact fwd_lastOutput_inv steps fwd0 st h rfl

/-- Witness for C3: two succeeding steps "a" and "b" yield success with both
entries and data = the second step's output. -/
theorem saga_C3_witness :
    run [okStep "a" 1, okStep "b" 2] =
      (SagaResult.success (some 2) [("a", 1), ("b", 2)],
       [Event.execCall "a" [], Event.execCall "b" [("a", 1)]]) := by
  have h := saga_C3_success_results_shape [okStep "a" 1, okStep "b" 2]
    ⟨[("a", 1), ("b", 2)],
      [⟨"a", 1, some (fun _ => Except.ok ())⟩,
       ⟨"b", 2, some (fun _ => Except.ok ())⟩], some 2,
      [Event.execCall "a" [], Event.execCall "b" [("a", 1)]]⟩ rfl (by decide)
  exact h.1

/-- C4: the compensator invokes every rollback-bearing record it was handed
(the invocation count equals the number of such records, so a failing
rollback never halts the pass); a rollback failure is reported through the
observable channel as an rbError event carrying the step name and the
error; and the saga's reported result remains the failed result built from
the original execution failure, never a rollback error.  The compensator is
a total function, so it never raises outward. -/
theorem saga_C4_rollback_failures_contained {V : Type}
    (ex : List (ExecutedStep V)) :
    ((rollback ex).filter isRbCall).length =
      (ex.filter (fun r => (ExecutedStep.rollback r).isSome)).length
    ∧ (∀ r ∈ ex, ∀ rb : V → Except Thrown Unit,
        ExecutedStep.rollback r = some rb →
        ∀ e : Thrown, rb r.output = Except.error e →
        Event.rbError r.name e ∈ rollback ex)
    ∧ (∀ (pre : List (StepDef V)) (sk : StepDef V) (post : List (StepDef V))
        (e : Thrown) (st : FwdState V), fwd pre fwd0 = some st →
        sk.execute sk.input st.results = Except.error e →
        (run (pre ++ sk :: post)).1 =
          SagaResult.failed (normalizeThrown e) sk.name) := by
  refine ⟨?_, ?_, ?_⟩
  · rw [rollback_filter_rbCall]
    simp [List.filter_reverse]
  · intro r hr rb hrb e he
    have hev : Event.rbError r.name e ∈ rbEvents r := by
      simp [rbEvents, hrb, he]
    exact mem_rollbackFrom ex.reverse r (by simpa using hr) _ hev
  · intro pre sk post e st hpre hk
    simpa using congrArg Prod.fst (run_fail_eq pre sk post e st hpre hk)

/-- Witness for C4: record "b" has a throwing rollback — the failure is
reported and the older record "a" is still compensated; and a saga whose
executed step "a" has a throwing rollback still reports the original
execution failure of step "c". -/
theorem saga_C4_witness :
    Event.rbError "b" (Thrown.errObj ⟨"rollback boom", 3⟩) ∈
      rollback [(⟨"a", 1, some (fun _ => Except.ok ())⟩ : ExecutedStep Nat),
        ⟨"b", 2, some (fun _ => Except.error (Thrown.errObj ⟨"rollback boom", 3⟩))⟩]
    ∧ (run [badRbStep "a" 1, failStep "c"]).1 =
        SagaResult.failed ⟨"boom", 7⟩ "c" := by
  have h := saga_C4_rollback_failures_contained
    [(⟨"a", 1, some (fun _ => Except.ok ())⟩ : ExecutedStep Nat),
     ⟨"b", 2, some (fun _ => Except.error (Thrown.errObj ⟨"rollback boom", 3⟩))⟩]
  refine ⟨h.2.1
    ⟨"b", 2, some (fun _ => Except.error (Thrown.errObj ⟨"rollback boom", 3⟩))⟩
    (by simp) _ rfl _ rfl, ?_⟩
  have h2 := saga_C4_rollback_failures_contained ([] : List (ExecutedStep Nat))
  exact h2.2.2 [badRbStep "a" 1] (failStep "c") [] (Thrown.errObj ⟨"boom", 7⟩)
    ⟨[("a", 1)],
      [⟨"a", 1, some (fun _ => Except.error (Thrown.errObj ⟨"rollback boom", 3⟩))⟩],
      some 1, [Event.execCall "a" []]⟩ rfl rfl

/-- C5: the error of a failed result is the normalization of the value the
failing execute threw: an Error object is surfaced unchanged, and any other
thrown value becomes an error whose message is exactly its textual
conversion. -/
theorem saga_C5_error_normalized {V : Type} (pre : List (StepDef V))
    (sk : StepDef V) (post : List (StepDef V)) (e : Thrown) (st : FwdState V)
    (hpre : fwd pre fwd0 = some st)
    (hk : sk.execute sk.input st.results = Except.error e) :
    (run (pre ++ sk :: post)).1 = SagaResult.failed (normalizeThrown e) sk.name
    ∧ (∀ err : JSError, normalizeThrown (Thrown.errObj err) = err)
    ∧ (∀ s : String, (normalizeThrown (Thrown.other s)).message = s) := by
  refine ⟨?_, fun err => rfl, fun s => rfl⟩
  simpa using congrArg Prod.fst (run_fail_eq pre sk post e st hpre hk)

/-- Witness for C5: throwing the text value "String error" yields a failed
result whose error has message exactly "String error" (and tag 0, i.e. a
fresh Error object). -/
theorem saga_C5_witness :
    (run [throwTextStep "step1" "String error"]).1 =
      SagaResult.failed ⟨"String error", 0⟩ "step1" := by
  have h := saga_C5_error_normalized [] (throwTextStep "step1" "String error")
    [] (Thrown.other "String error") fwd0 rfl rfl
  exact h.1

/-- C6: after the steps of pre have succeeded (with pairwise-distinct
names), the run of pre ++ s :: rest continues as the loop applied to
s :: rest with results map st.results — by the loop's definition, s's
execute operation is invoked next and receives exactly st.results as its
context — and st.results maps step name to output for precisely the steps of
pre, each holding the output its own execute returned; no other key is
present, so no output of a step not yet executed is exposed. -/
theorem saga_C6_context_prior_results {V : Type} (pre : List (StepDef V))
    (s : StepDef V) (rest : List (StepDef V)) (st : FwdState V)
    (hpre : fwd pre fwd0 = some st)
    (hnodup : (pre.map StepDef.name).Nodup) :
    run (pre ++ s :: rest) =
      runLoop (s :: rest) st.results st.executed st.lastOutput st.log
    ∧ st.results = st.executed.map (fun r => (r.name, r.output))
    ∧ st.results.map Prod.fst = pre.map StepDef.name := by
  have h1 : run (pre ++ s :: rest) =
      runLoop (s :: rest) st.results st.executed st.lastOutput st.log := by
    simpa [run, fwd0] using runLoop_of_fwd pre (s :: rest) fwd0 st hpre
  have h2 := fwd_results_pairs pre fwd0 st hpre (by simpa [fwd0] using hnodup) rfl
  have h3 := fwd_executed_names pre fwd0 st hpre
  refine ⟨h1, h2, ?_⟩
  rw [h2, List.map_map]
  simpa [fwd0] using h3

/-- Witness for C6: when step "c" runs after "a" and "b", its context holds
exactly the outputs of "a" and "b". -/
theorem saga_C6_witness :
    run [okStep "a" 1, okStep "b" 2, okStep "c" 3] =
      runLoop [okStep "c" 3] [("a", 1), ("b", 2)]
        [⟨"a", 1, some (fun _ => Except.ok ())⟩,
         ⟨"b", 2, some (fun _ => Except.ok ())⟩]
        (some 2) [Event.execCall "a" [], Event.execCall "b" [("a", 1)]] := by
  have h := saga_C6_context_prior_results [okStep "a" 1, okStep "b" 2]
    (okStep "c" 3) []
    ⟨[("a", 1), ("b", 2)],
      [⟨"a", 1, some (fun _ => Except.ok ())⟩,
       ⟨"b", 2, some (fun _ => Except.ok ())⟩], some 2,
      [Event.execCall "a" [], Event.execCall "b" [("a", 1)]]⟩ rfl (by decide)
  exact h.1

/-- C7: any error escaping run's try block is caught by the outer handler
and returned as a failed saga result — never re-raised to the caller — with
the normalized error and with failedAt the pseudo-step name "orchestrator";
in a saga that registers no step of that reserved name, this attribution
names no registered step. -/
theorem saga_C7_escaping_error_totalized {V : Type} (e : Thrown)
    (steps : List (StepDef V))
    (hres : "orchestrator" ∉ steps.map StepDef.name) :
    orchestratorCatch (V := V) e =
      SagaResult.failed (normalizeThrown e) "orchestrator"
    ∧ ∃ err fa, orchestratorCatch (V := V) e = SagaResult.failed err fa
        ∧ fa ∉ steps.map StepDef.name :=
  ⟨rfl, normalizeThrown e, "orchestrator", rfl, hres⟩

/-- Witness for C7: a thrown text value reaching the outer handler of a saga
with steps "a" and "b" yields a failed result at "orchestrator", which is
not a registered step name. -/
theorem saga_C7_witness :
    orchestratorCatch (V := Nat) (Thrown.other "oops") =
      SagaResult.failed ⟨"oops", 0⟩ "orchestrator" := by
  have h := saga_C7_escaping_error_totalized (V := Nat) (Thrown.other "oops")
    [okStep "a" 1, okStep "b" 2] (by decide)
  exact h.1

/-- C8: in one compensation pass, the rollback invocations are exactly one
per executed record that carries a rollback operation, visited from the
newest record to the oldest — hence each record's rollback operation is
invoked at most once, and a record without one is skipped while all
earlier (older) records are still processed. -/
theorem saga_C8_at_most_once_skip_none {V : Type} (ex : List (ExecutedStep V)) :
    (rollback ex).filter isRbCall =
      (ex.reverse.filter (fun r => (ExecutedStep.rollback r).isSome)).map
        (fun r => Event.rbCall r.name r.output)
    ∧ ((rollback ex).filter isRbCall).length =
        (ex.filter (fun r => (ExecutedStep.rollback r).isSome)).length := by
  refine ⟨rollback_filter_rbCall ex, ?_⟩
  rw [rollback_filter_rbCall]
  simp [List.filter_reverse]

/-- C9 counterexample: the source's step method pushes onto this.steps and
returns this, so divergent chains built from the same base alias one
builder.  Concretely: after building base = createSaga().step("a"),
chain1 = base.step("b") and chain2 = base.step("c"), a run through chain1's
reference executes steps "a", "b", "c" — appending through chain2 changed
the sequence chain1 runs, contradicting the claim's no-aliasing-surprises
contract. -/
theorem saga_C9_counterexample :
    runRef cexChain2.1 cexChain1.2 ≠ runRef cexChain1.1 cexChain1.2
    ∧ (cexChain2.1.objs.getD cexChain1.2 []).map StepDef.name = ["a", "b", "c"]
    ∧ (cexChain1.1.objs.getD cexChain1.2 []).map StepDef.name = ["a", "b"] :=
  ⟨by decide, rfl, rfl⟩

/-- C9 amended: appending a step performs no execution — the builder change
is exactly the new Step Definition pushed onto the referenced builder's
array, and every other builder is untouched — and each append returns a
reference usable for further appends and run; but that reference is the same
reference that was appended through (the builder mutates in place and
returns this), so divergent chains built from the same base alias each
other, and a run through any of them executes the builder's current,
mutated step sequence. -/
theorem saga_C9_append_mutates_in_place {V : Type} (h : BuilderHeap V)
    (r : Nat) (s : StepDef V) (hr : r < h.objs.length) :
    (stepRef h r s).2 = r
    ∧ (stepRef h r s).1.objs.getD r [] = h.objs.getD r [] ++ [s]
    ∧ (∀ q : Nat, q ≠ r → (stepRef h r s).1.objs.getD q [] = h.objs.getD q [])
    ∧ runRef (stepRef h r s).1 r = run (h.objs.getD r [] ++ [s]) := by
  have hset : (stepRef h r s).1.objs.getD r [] = h.objs.getD r [] ++ [s] := by
    simp [stepRef, List.getD, List.getElem?_set_eq_of_lt _ hr]
  refine ⟨rfl, hset, ?_, ?_⟩
  · intro q hq
    simp [stepRef, List.getD, List.getElem?_set_ne (fun hh => hq hh.symm)]
  · rw [runRef, hset]

/-- Witness for C9 amended: appending "b" through the base builder's
reference returns the same reference 0 and extends that builder's array by
the new step. -/
theorem saga_C9_witness :
    (stepRef cexBase.1 0 (okStep "b" 2)).2 = 0
    ∧ (stepRef cexBase.1 0 (okStep "b" 2)).1.objs.getD 0 [] =
        cexBase.1.objs.getD 0 [] ++ [okStep "b" 2] := by
  have h := saga_C9_append_mutates_in_place cexBase.1 0 (okStep "b" 2) (by decide)
  exact ⟨h.1, h.2.1⟩

/-- C10: in a run whose executed prefix contains two records r1 and r2 with
the same step name (r1 executed earlier, r2 later, no later record reusing
the name) and whose next step sf throws: the run fails at sf; the results
map holds the later duplicate's output under the shared name (the earlier
entry was overwritten); yet both duplicates kept their own executed records,
and the compensation pass invokes each one's rollback operation exactly
once, each receiving the output its own execute returned — r1's rollback
gets r1.output, not the overwritten results-map value r2.output. -/
theorem saga_C10_duplicate_names_compensated {V : Type} (pre : List (StepDef V))
    (sf : StepDef V) (post : List (StepDef V)) (e : Thrown) (st : FwdState V)
    (eA eB eC : List (ExecutedStep V)) (r1 r2 : ExecutedStep V)
    (hpre : fwd pre fwd0 = some st)
    (hfail : sf.execute sf.input st.results = Except.error e)
    (hex : st.executed = eA ++ r1 :: (eB ++ r2 :: eC))
    (hname : r1.name = r2.name)
    (hfresh : r2.name ∉ eC.map ExecutedStep.name)
    (hrb1 : (ExecutedStep.rollback r1).isSome)
    (hrb2 : (ExecutedStep.rollback r2).isSome) :
    (run (pre ++ sf :: post)).1 = SagaResult.failed (normalizeThrown e) sf.name
    ∧ getKey? st.results r1.name = some r2.output
    ∧ (rollback st.executed).filter isRbCall =
        ((eC.reverse.filter (fun r => (ExecutedStep.rollback r).isSome)).map
          (fun r => Event.rbCall r.name r.output))
        ++ Event.rbCall r2.name r2.output ::
          (((eB.reverse.filter (fun r => (ExecutedStep.rollback r).isSome)).map
            (fun r => Event.rbCall r.name r.output))
          ++ Event.rbCall r1.name r1.output ::
            ((eA.reverse.filter (fun r => (ExecutedStep.rollback r).isSome)).map
              (fun r => Event.rbCall r.name r.output))) := by
  have hfst : (run (pre ++ sf :: post)).1 =
      SagaResult.failed (normalizeThrown e) sf.name := by
    simpa using congrArg Prod.fst (run_fail_eq pre sf post e st hpre hfail)
  refine ⟨hfst, ?_, ?_⟩
  · have hproj : st.results = project st.executed :=
      fwd_results_project pre fwd0 st hpre rfl
    have hsplit : eA ++ r1 :: (eB ++ r2 :: eC) = (eA ++ r1 :: eB) ++ r2 :: eC := by
      simp
    rw [hproj, hex, hname, hsplit]
    exact getKey?_project_last (eA ++ r1 :: eB) r2 eC hfresh
  · rw [rollback_filter_rbCall, hex]
    simp [List.reverse_append, List.filter_append, List.filter_cons, hrb1, hrb2,
      List.map_append, List.append_assoc]

/-- Witness for C10: steps "dup" (output 1) and "dup" (output 2) both
succeed and "f" throws: the results map holds 2 under "dup", while the
compensation invokes the later record's rollback with 2 and then the earlier
record's rollback with its own output 1. -/
theorem saga_C10_witness :
    getKey? [("dup", 2)] "dup" = some (2 : Nat)
    ∧ (rollback [(⟨"dup", 1, some (fun _ => Except.ok ())⟩ : ExecutedStep Nat),
        ⟨"dup", 2, some (fun _ => Except.ok ())⟩]).filter isRbCall =
        [Event.rbCall "dup" 2, Event.rbCall "dup" 1] := by
  have h := saga_C10_duplicate_names_compensated
    [okStep "dup" 1, okStep "dup" 2] (failStep "f") [] (Thrown.errObj ⟨"boom", 7⟩)
    ⟨[("dup", 2)],
      [⟨"dup", 1, some (fun _ => Except.ok ())⟩,
       ⟨"dup", 2, some (fun _ => Except.ok ())⟩], some 2,
      [Event.execCall "dup" [], Event.execCall "dup" [("dup", 1)]]⟩
    [] [] [] ⟨"dup", 1, some (fun _ => Except.ok ())⟩
    ⟨"dup", 2, some (fun _ => Except.ok ())⟩
    rfl rfl rfl rfl (by simp) rfl rfl
  exact ⟨h.2.1, h.2.2⟩

end Saga
